import Mathlib

/-!
Shallow embedding of the algorithmic core of `make-that-pipe-sound`
(`src/App.tsx`): the song-string parser `parseSongString` and the
static-mode row-layout computation `rows` (the `useMemo` named `rows` in
`App`, restricted to `mode === "static"`, which is the `layoutRows`
contract of the specification).

Modelling conventions:
* JavaScript numbers are modelled as exact rationals (`ℚ`); floating
  point rounding is outside the model.  The one place in the layout
  where the exact-value semantics produces `NaN`/`Infinity` — the target
  notes-per-row count, whose computation divides by `avgWidth + gap`,
  which is `0` for some negative unit sizes — is modelled faithfully via
  the explicit `TargetCount` type and the JavaScript comparison and
  `slice` semantics for those values.
* In the parser, the literal string "Infinity" (accepted by JavaScript
  `parseFloat`) and magnitudes that overflow or underflow the double
  range (e.g. `1e999`) are outside the rational model and are treated as
  not-a-number; consequently a JavaScript duration of
  `1 / Infinity = 0` (token `C/Infinity`) or `Infinity` (token
  `C*Infinity`) is not captured, and no theorem below asserts that a
  non-barline duration is non-zero.
* JavaScript strings are modelled as Lean `String`s.  The string
  operations used by the source (`trim`, `split(/\s+/)`, `split("/")`,
  `toLowerCase`, `includes`, the regex `/\d$/`) are implemented below by
  structural recursion on the character list of the string, so that every
  definition evaluates by kernel reduction; both digit classes (`\d` and
  `Char.isDigit`) are ASCII `0-9`.
-/

/-- `type Note = { pitch: string; duration: number }` from `App.tsx`. -/
structure Note where
  pitch : String
  duration : ℚ
  deriving DecidableEq

/-- Model of `String.prototype.trim`: drop leading and trailing
whitespace characters. -/
def charTrim (cs : List Char) : List Char :=
  ((cs.dropWhile Char.isWhitespace).reverse.dropWhile Char.isWhitespace).reverse

/-- Model of `String.prototype.trim` on `String`. -/
def strTrim (s : String) : String :=
  String.mk (charTrim s.toList)

/-- Model of `String.prototype.toLowerCase` (ASCII letters, which is all
the parser compares against). -/
def strToLower (s : String) : String :=
  String.mk (s.toList.map Char.toLower)

/-- Splitting a character list at every occurrence of the separator, as
`String.prototype.split(sep)` does for a one-character separator: the
separator is dropped, empty fields are kept. -/
def splitOnCharAux (sep : Char) : List Char → List Char → List (List Char)
  | [], acc => [acc]
  | c :: cs, acc =>
    if c = sep then acc :: splitOnCharAux sep cs []
    else splitOnCharAux sep cs (acc ++ [c])

/-- Model of `token.split(sep)` for a one-character separator. -/
def splitOnChar (sep : Char) (cs : List Char) : List (List Char) :=
  splitOnCharAux sep cs []

/-- Splitting on runs of whitespace with empty tokens dropped: the
combination `split(/\s+/).filter(Boolean)` of the source. -/
def wsTokensAux : List Char → List Char → List (List Char)
  | [], acc => if acc.isEmpty then [] else [acc]
  | c :: cs, acc =>
    if c.isWhitespace then
      (if acc.isEmpty then [] else [acc]) ++ wsTokensAux cs []
    else wsTokensAux cs (acc ++ [c])

/-- `song.trim().split(/\s+/).filter(Boolean)` from `App.tsx` line 22. -/
def tokenize (song : String) : List String :=
  (wsTokensAux (charTrim song.toList) []).map String.mk

/-- The regex test `/\d$/.test(pitch)`: the last character is an ASCII
decimal digit. -/
def endsInDigit (s : String) : Bool :=
  match s.toList.getLast? with
  | some c => c.isDigit
  | none => false

/-- Numeric value of a list of decimal digit characters, most significant
first. -/
def digitsVal (ds : List Char) : Nat :=
  ds.foldl (fun a c => 10 * a + (c.toNat - '0'.toNat)) 0

/-- The pieces of a decimal literal recognised by `parseFloat`: sign,
integer digits, fractional digits, and a (signed) exponent. -/
structure FloatParts where
  neg : Bool
  intDigits : List Char
  fracDigits : List Char
  expNeg : Bool
  expDigits : List Char
  deriving DecidableEq

/-- Character-level scanner of JavaScript `parseFloat`: skip leading
whitespace, read an optional sign, decimal digits with an optional
fractional part, and an optional exponent (a malformed exponent is
ignored, like in JavaScript where the longest valid literal prefix
wins); trailing garbage is ignored.  Returns `none` where JavaScript
returns `NaN` (no mantissa digits at all).  The literals
`Infinity`/`-Infinity` and magnitudes beyond the double range (which
JavaScript turns into `±Infinity` or `0`) are outside this rational
model and are also mapped to `none`; see the module comment. -/
def scanFloat (cs0 : List Char) : Option FloatParts :=
  let cs := cs0.dropWhile Char.isWhitespace
  let sc : Bool × List Char :=
    match cs with
    | '+' :: r => (false, r)
    | '-' :: r => (true, r)
    | _ => (false, cs)
  let intD := sc.2.takeWhile Char.isDigit
  let r1 := sc.2.dropWhile Char.isDigit
  let fr : List Char × List Char :=
    match r1 with
    | '.' :: r => (r.takeWhile Char.isDigit, r.dropWhile Char.isDigit)
    | _ => ([], r1)
  if intD.isEmpty ∧ fr.1.isEmpty then none
  else
    let ex : Bool × List Char :=
      match fr.2 with
      | 'e' :: r | 'E' :: r =>
        match r with
        | '+' :: q => (false, q.takeWhile Char.isDigit)
        | '-' :: q => (true, q.takeWhile Char.isDigit)
        | _ => (false, r.takeWhile Char.isDigit)
      | _ => (false, [])
    some ⟨sc.1, intD, fr.1, ex.1, ex.2⟩

/-- Rational value of scanned decimal-literal pieces. -/
def evalFloatParts (p : FloatParts) : ℚ :=
  let mantissa : ℚ :=
    (digitsVal p.intDigits : ℚ) + (digitsVal p.fracDigits : ℚ) / (10 : ℚ) ^ p.fracDigits.length
  let e : ℤ :=
    if p.expDigits.isEmpty then 0
    else (if p.expNeg then -1 else 1) * (digitsVal p.expDigits : ℤ)
  (if p.neg then (-1 : ℚ) else 1) * mantissa * (10 : ℚ) ^ e

/-- Model of JavaScript `parseFloat`, as `some` rational or `none` for
`NaN`. -/
def jsParseFloat (s : String) : Option ℚ :=
  (scanFloat s.toList).map evalFloatParts

/-- The JavaScript fallback `parseFloat(x) || 1` of `App.tsx` lines 35
and 40: `NaN` and `0` are falsy, so both fall back to `1`. -/
def floatOrOne (s : String) : ℚ :=
  match jsParseFloat s with
  | some x => if x = 0 then 1 else x
  | none => 1

/-- Per-token step of `parseSongString` (`App.tsx` lines 23-58): the
barline token `"|"` maps to duration `0`; a token containing `/` has
duration `1 / (parseFloat(parts[1]) || 1)`; otherwise a token containing
`*` has duration `parseFloat(parts[1]) || 1`; otherwise duration `1`.
Then the `pause` exemption and octave defaulting: append `"4"` when the
pitch does not end in a digit. -/
def parseToken (token : String) : Note :=
  if token = "|" then { pitch := "|", duration := 0 }
  else
    let pd : List Char × ℚ :=
      if (token.toList.contains '/') then
        let parts := splitOnChar '/' token.toList
        (charTrim (parts.getD 0 []), 1 / floatOrOne (String.mk (parts.getD 1 [])))
      else if (token.toList.contains '*') then
        let parts := splitOnChar '*' token.toList
        (charTrim (parts.getD 0 []), floatOrOne (String.mk (parts.getD 1 [])))
      else (charTrim token.toList, 1)
    let pitch : String :=
      if strToLower (strTrim (String.mk pd.1)) = "pause" then String.mk pd.1
      else if endsInDigit (String.mk pd.1) then String.mk pd.1
      else String.mk pd.1 ++ "4"
    { pitch := pitch, duration := pd.2 }

/-- `parseSongString` (`App.tsx` lines 20-68).  The `undefined`/empty
input of the JavaScript signature is subsumed by the falsy empty string;
after mapping the tokens, a synthetic `start` note is prepended unless
the first parsed pitch is already (case-insensitively) `"start"`. -/
def parseSongString (song : String) : List Note :=
  if song = "" then []
  else
    let notes := (tokenize song).map parseToken
    if notes.length = 0 then notes
    else if strToLower ((notes.headD { pitch := "", duration := 0 }).pitch) ≠ "start" then
      { pitch := "start", duration := 1 } :: notes
    else notes

/-- `notes.some((n) => String(n.pitch) === "|")` (`App.tsx` line 201). -/
def hasBarlines (notes : List Note) : Bool :=
  notes.any (fun n => decide (n.pitch = "|"))

/-- The predicate of `notes.findIndex` at `App.tsx` line 203:
`String(n.pitch).toLowerCase() === "start"`. -/
def isStartPitch (n : Note) : Bool :=
  decide (strToLower n.pitch = "start")

/-- `Array.prototype.findIndex`: index of the first match, `-1` if none,
with the running index made explicit. -/
def jsFindIndexAux (p : Note → Bool) : List Note → Nat → Int
  | [], _ => -1
  | n :: rest, i => if p n then (i : Int) else jsFindIndexAux p rest (i + 1)

/-- `Array.prototype.findIndex` over the whole list. -/
def jsFindIndex (p : Note → Bool) (notes : List Note) : Int :=
  jsFindIndexAux p notes 0

/-- `startIdx` of `App.tsx` lines 202-204. -/
def startIdxOf (notes : List Note) : Int :=
  jsFindIndex isStartPitch notes

/-- The measure-building loop of `App.tsx` lines 186-198, with the loop
counter `i` explicit: each barline pushes the accumulating measure
(discarding the barline index itself), and a non-empty trailing measure
is pushed at the end. -/
def buildMeasuresAux : List Note → Nat → List Nat → List (List Nat)
  | [], _, cur => if cur.length ≠ 0 then [cur] else []
  | n :: rest, i, cur =>
    if n.pitch = "|" then cur :: buildMeasuresAux rest (i + 1) []
    else buildMeasuresAux rest (i + 1) (cur ++ [i])

/-- The measure list built from `notes` (`App.tsx` lines 186-198). -/
def buildMeasures (notes : List Note) : List (List Nat) :=
  buildMeasuresAux notes 0 []

/-- The removal loop of `App.tsx` lines 207-213: delete the start index
from the first measure containing it (`splice` at its `indexOf`, i.e.
erase the first occurrence) and stop. -/
def removeStartIdx (s : Nat) : List (List Nat) → List (List Nat)
  | [] => []
  | m :: rest =>
    if s ∈ m then m.erase s :: rest
    else m :: removeStartIdx s rest

/-- The guard `hasBarlines && startIdx >= 0` of `App.tsx` line 205 (and
of the per-measure check at lines 248-253). -/
def isolateStart (notes : List Note) : Bool :=
  hasBarlines notes && decide (0 ≤ startIdxOf notes)

/-- The measure list after the start-isolation step of `App.tsx` lines
200-216: when the song has barlines and a start note, remove the start
index from its measure and unshift a dedicated leading measure. -/
def measuresOf (notes : List Note) : List (List Nat) :=
  if isolateStart notes then
    [(startIdxOf notes).toNat] :: removeStartIdx (startIdxOf notes).toNat (buildMeasures notes)
  else buildMeasures notes

/-- JavaScript `Math.round` on exact rationals: round half up. -/
def jsRound (q : ℚ) : ℤ :=
  Int.floor (q + 1 / 2)

/-- `Math.max(Math.round(unitSize / 10), 6)` (`App.tsx` line 219). -/
def activeBorderOf (u : ℚ) : ℤ :=
  max (jsRound (u / 10)) 6

/-- `n.duration > 0 ? n.duration : 0.0001` (`App.tsx` line 223). -/
def clampedDuration (n : Note) : ℚ :=
  if 0 < n.duration then n.duration else 1 / 10000

/-- Per-note outer width `dur * unitSize + 2 * activeBorder`
(`App.tsx` lines 222-226). -/
def noteWidth (u : ℚ) (n : Note) : ℚ :=
  clampedDuration n * u + 2 * (activeBorderOf u : ℚ)

/-- `avgWidth` of `App.tsx` lines 227-229: arithmetic mean of the per-note
widths, with fallback `unitSize + 2 * activeBorder` for an empty list. -/
def avgWidthOf (notes : List Note) (u : ℚ) : ℚ :=
  if notes.length ≠ 0 then ((notes.map (noteWidth u)).sum) / (notes.length : ℚ)
  else u + 2 * (activeBorderOf u : ℚ)

/-- `gap = 15`, matching `styles.staticGrid.gap` (`App.tsx` line 220). -/
def gap : ℚ := 15

/-- The value of `Math.max(1, Math.floor((containerWidth + gap) /
(avgWidth + gap)))` in JavaScript float semantics.  Ordinarily this is a
number at least `1`, but when `avgWidth + gap = 0` (reachable for
negative unit sizes, e.g. a single duration-1 note at `unitSize = -27`)
the division yields `NaN` (when `containerWidth + gap = 0` too) or
`±Infinity`; `Math.floor` preserves these and `Math.max(1, NaN) = NaN`,
`Math.max(1, Infinity) = Infinity`, `Math.max(1, -Infinity) = 1`. -/
inductive TargetCount where
  | nan : TargetCount
  | inf : TargetCount
  | num : Nat → TargetCount
  deriving DecidableEq

/-- `targetNotesPerRow` (`App.tsx` lines 231-234) with JavaScript
division semantics at the three sign cases of a zero denominator
(a float sum of a negative average and the positive gap that is zero is
the positive zero, so the sign of the quotient is the sign of the
numerator). -/
def targetNotesPerRow (notes : List Note) (u w : ℚ) : TargetCount :=
  if avgWidthOf notes u + gap = 0 then
    if w + gap = 0 then TargetCount.nan
    else if 0 < w + gap then TargetCount.inf
    else TargetCount.num 1
  else TargetCount.num (max 1 (Int.floor ((w + gap) / (avgWidthOf notes u + gap)))).toNat

/-- The JavaScript comparison `measure.length > target` (`App.tsx` line
264): false when the target is `NaN` or `Infinity`. -/
def targetLtLen (t : TargetCount) (len : Nat) : Bool :=
  match t with
  | TargetCount.num n => decide (n < len)
  | _ => false

/-- The JavaScript comparison `rowCount + measure.length <= target`
(`App.tsx` line 278): true for an `Infinity` target, false for `NaN`. -/
def lenLeTarget (len : Nat) (t : TargetCount) : Bool :=
  match t with
  | TargetCount.nan => false
  | TargetCount.inf => true
  | TargetCount.num n => decide (len ≤ n)

/-- Consecutive chunks of `t` elements (the loops
`for (let s = 0; s < len; s += t) push(slice(s, s + t))` at `App.tsx`
lines 271-273 and 294-296).  The JavaScript loop only terminates for
`t ≥ 1`, which always holds for `targetNotesPerRow`; the clamp
`max t 1` and the fuel argument (`length` is enough, since every step
consumes at least one element) make the Lean definition total and
kernel-computable. -/
def chunksOfAux (t : Nat) : Nat → List Nat → List (List Nat)
  | _, [] => []
  | 0, _ :: _ => []
  | fuel + 1, c :: cs => (c :: cs).take (max t 1) :: chunksOfAux t fuel ((c :: cs).drop (max t 1))

/-- Consecutive chunks of `t` elements of a list. -/
def chunksOf (t : Nat) (l : List Nat) : List (List Nat) :=
  chunksOfAux t l.length l

/-- The chunking loops (`App.tsx` lines 271-273 and 294-296) at a
possibly degenerate target.  For a numeric target this is `chunksOf`.
For a `NaN` target on a non-empty list the loop body runs once with
`slice(0, 0 + NaN) = []` (the `NaN` end index converts to `0`) and then
`s += NaN` ends the loop: the result is one empty chunk.  For an
`Infinity` target on a non-empty list, `slice(0, Infinity)` is the whole
list and the loop ends after one iteration. -/
def chunksOfT : TargetCount → List Nat → List (List Nat)
  | _, [] => []
  | TargetCount.nan, _ :: _ => [[]]
  | TargetCount.inf, c :: cs => [c :: cs]
  | TargetCount.num n, c :: cs => chunksOf n (c :: cs)

/-- The measure-packing loop of `App.tsx` lines 236-288.  `row` is the
accumulating row; the source's `rowCount` always equals `row.length`
(both are reset together and grow together), so it is rendered as
`row.length`.  Branches in source order: skip empty measures; give the
isolated start measure its own row (flushing the current row first);
split an oversized measure into chunks after flushing; append a fitting
measure to the current row; otherwise flush and start a new row.  The
final non-empty row is pushed at the end. -/
def packMeasures (iso : Bool) (s : Nat) (t : TargetCount) :
    List (List Nat) → List Nat → List (List Nat)
  | [], row => if row.length ≠ 0 then [row] else []
  | m :: rest, row =>
    if m.length = 0 then packMeasures iso s t rest row
    else if iso = true ∧ s ∈ m then
      (if row.length ≠ 0 then [row] else []) ++ [s] :: packMeasures iso s t rest []
    else if targetLtLen t m.length = true then
      (if row.length ≠ 0 then [row] else []) ++ (chunksOfT t m ++ packMeasures iso s t rest [])
    else if lenLeTarget (row.length + m.length) t = true ∨ row.length = 0 then
      packMeasures iso s t rest (row ++ m)
    else
      row :: packMeasures iso s t rest m

/-- The `rows` computation of `App.tsx` lines 183-303 in `static` mode
(the `layoutRows(notes, unitSize, containerWidth)` contract of the
specification): build measures, isolate the start marker, pack measures
into rows with target `targetNotesPerRow`; with at most one measure,
fall back to flat chunking of the single measure (or `[[]]` when there
is none); with an empty packing result, fall back to one row holding
every index. -/
def rows (notes : List Note) (u w : ℚ) : List (List Nat) :=
  let measures := measuresOf notes
  let target := targetNotesPerRow notes u w
  let outRows := packMeasures (isolateStart notes) (startIdxOf notes).toNat target measures []
  if measures.length ≤ 1 then
    let flat := if measures.length = 1 then measures.headD [] else []
    let fallback := chunksOfT target flat
    if fallback.length ≠ 0 then fallback else [flat]
  else if outRows.length ≠ 0 then outRows else [List.range notes.length]

/-- The list of indices of non-barline notes, in order, starting at
index `i`: what the measure contents flatten to. -/
def keptIndicesAux : List Note → Nat → List Nat
  | [], _ => []
  | n :: rest, i =>
    if n.pitch = "|" then keptIndicesAux rest (i + 1)
    else i :: keptIndicesAux rest (i + 1)

/-- The indices of the non-barline notes, in order. -/
def keptIndices (notes : List Note) : List Nat :=
  keptIndicesAux notes 0

/-- Modelled from the words of claim C6 (refinement comparison only):
the claimed per-note footprint `duration * unitSize +
2 * max(round(unitSize / 10), 6)`, without the source's clamping of
non-positive durations to `0.0001`. -/
def claimFootprintC6 (u : ℚ) (n : Note) : ℚ :=
  n.duration * u + 2 * (activeBorderOf u : ℚ)

/-- Modelled from the words of claim C6 (refinement comparison only):
`targetPerRow` computed with the unclamped footprint of
`claimFootprintC6`. -/
def claimTargetPerRowC6 (notes : List Note) (u w : ℚ) : Nat :=
  (max 1 (Int.floor ((w + gap) /
    ((notes.map (claimFootprintC6 u)).sum / (notes.length : ℚ) + gap)))).toNat

/-- Concrete input: `parse("start C D")`-like sequence with a barline,
used to exercise the layout on a song with measures. -/
def cNotesA : List Note :=
  [{ pitch := "start", duration := 1 }, { pitch := "C4", duration := 1 },
   { pitch := "|", duration := 0 }, { pitch := "D4", duration := 1 }]

/-- Concrete input with negative durations (as produced by a token such
as `C*-1`), exercising the footprint clamping. -/
def cNotesB : List Note :=
  [{ pitch := "C4", duration := -1 }, { pitch := "C4", duration := -1 }]

/-- Concrete barline-free input with unit durations. -/
def cNotesC : List Note :=
  [{ pitch := "C4", duration := 1 }, { pitch := "D4", duration := 1 },
   { pitch := "E4", duration := 1 }]

/-- Concrete single-note input whose footprint at `unitSize = -27` is
`1 * (-27) + 2 * 6 = -15`, making `avgWidth + gap = 0`: the
degenerate-target configuration. -/
def cNotesD : List Note :=
  [{ pitch := "C4", duration := 1 }]

/-! General helper lemmas. -/

/-- Evaluation rule for `Int.floor` at a concrete rational. -/
theorem floorEvalQ {q : ℚ} {z : ℤ} (h : (z : ℚ) ≤ q) (h' : q < z + 1) : Int.floor q = z :=
  Int.floor_eq_iff.mpr ⟨h, h'⟩

/-- The flushed-row singleton flattens back to the row. -/
theorem flushFlatten (row : List Nat) :
    (if row.length ≠ 0 then [row] else []).flatten = row := by
  by_cases h : row.length ≠ 0
  · simp [h]
  · simp only [ne_eq, not_not] at h
    simp [List.length_eq_zero.mp h]

/-- Membership in the flushed-row singleton. -/
theorem flushMem {row r : List Nat} (h : r ∈ (if row.length ≠ 0 then [row] else [])) :
    r = row := by
  by_cases hr : row.length ≠ 0
  · rw [if_pos hr] at h
    exact List.mem_singleton.mp h
  · rw [if_neg hr] at h
    exact absurd h (List.not_mem_nil r)

/-- When `targetNotesPerRow` is a number, it is at least `1` (the
`Math.max(1, …)`, and `Math.max(1, -Infinity) = 1`). -/
theorem targetNotesPerRow_num_one_le {notes : List Note} {u w : ℚ} {n : Nat}
    (h : targetNotesPerRow notes u w = TargetCount.num n) : 1 ≤ n := by
  rw [targetNotesPerRow] at h
  by_cases h0 : avgWidthOf notes u + gap = 0
  · rw [if_pos h0] at h
    by_cases h1 : w + gap = 0
    · rw [if_pos h1] at h
      exact absurd h (by simp)
    · rw [if_neg h1] at h
      by_cases h2 : 0 < w + gap
      · rw [if_pos h2] at h
        exact absurd h (by simp)
      · rw [if_neg h2] at h
        have : n = 1 := (TargetCount.num.injEq _ _ ▸ h.symm)
        omega
  · rw [if_neg h0] at h
    have hn : n = (max 1 (Int.floor ((w + gap) / (avgWidthOf notes u + gap)))).toNat :=
      (TargetCount.num.injEq _ _ ▸ h.symm)
    have h1 : (1 : ℤ) ≤ max 1 (Int.floor ((w + gap) / (avgWidthOf notes u + gap))) :=
      le_max_left 1 _
    have := Int.toNat_le_toNat h1
    omega

/-- The three shapes of `targetNotesPerRow` with a zero denominator. -/
theorem targetNotesPerRow_degenerate {notes : List Note} {u w : ℚ}
    (h0 : avgWidthOf notes u + gap = 0) :
    targetNotesPerRow notes u w = TargetCount.nan ∨
      targetNotesPerRow notes u w = TargetCount.inf ∨
      targetNotesPerRow notes u w = TargetCount.num 1 := by
  rw [targetNotesPerRow, if_pos h0]
  by_cases h1 : w + gap = 0
  · rw [if_pos h1]
    exact Or.inl rfl
  · rw [if_neg h1]
    by_cases h2 : 0 < w + gap
    · rw [if_pos h2]
      exact Or.inr (Or.inl rfl)
    · rw [if_neg h2]
      exact Or.inr (Or.inr rfl)

/-- With a non-zero denominator, `targetNotesPerRow` is a number at
least `1`. -/
theorem targetNotesPerRow_num_of_ne {notes : List Note} {u w : ℚ}
    (h0 : avgWidthOf notes u + gap ≠ 0) :
    ∃ n : Nat, targetNotesPerRow notes u w = TargetCount.num n ∧ 1 ≤ n := by
  refine ⟨(max 1 (Int.floor ((w + gap) / (avgWidthOf notes u + gap)))).toNat,
    by rw [targetNotesPerRow, if_neg h0], ?_⟩
  have h1 : (1 : ℤ) ≤ max 1 (Int.floor ((w + gap) / (avgWidthOf notes u + gap))) :=
    le_max_left 1 _
  exact Int.toNat_le_toNat h1

/-- With a positive unit size every per-note width is positive: the
clamped duration factor is positive and the border is at least `6`. -/
theorem noteWidth_pos {u : ℚ} (hu : 0 < u) (n : Note) : 0 < noteWidth u n := by
  rw [noteWidth]
  have h1 : 0 < clampedDuration n := by
    rw [clampedDuration]
    by_cases hd : 0 < n.duration
    · rw [if_pos hd]
      exact hd
    · rw [if_neg hd]
      norm_num
  have h2 : (6 : ℚ) ≤ ((activeBorderOf u : ℤ) : ℚ) := by
    have h6 : (6 : ℤ) ≤ activeBorderOf u := le_max_right _ _
    exact_mod_cast h6
  nlinarith [mul_pos h1 hu]

/-- With a positive unit size and a non-empty note list the average
width is positive, so the target denominator `avgWidth + gap` is not
zero and the target is a genuine number. -/
theorem avgWidthOf_pos {notes : List Note} {u : ℚ} (hne : notes ≠ []) (hu : 0 < u) :
    0 < avgWidthOf notes u := by
  rw [avgWidthOf, if_pos (fun h => hne (List.length_eq_zero.mp h))]
  have hs : 0 < (notes.map (noteWidth u)).sum := by
    refine List.sum_pos _ (fun x hx => ?_) (fun h => hne (by simpa using h))
    obtain ⟨n, _, hnx⟩ := List.mem_map.mp hx
    rw [← hnx]
    exact noteWidth_pos hu n
  have hl : (0 : ℚ) < (notes.length : ℚ) := by
    exact_mod_cast List.length_pos.mpr hne
  exact div_pos hs hl

/-! Lemmas about `chunksOf`. -/

/-- Flattening the chunks of a list yields the list back (with enough
fuel). -/
theorem chunksOfAux_flatten (t : Nat) :
    ∀ (fuel : Nat) (l : List Nat), l.length ≤ fuel → (chunksOfAux t fuel l).flatten = l := by
  intro fuel
  induction fuel with
  | zero =>
    intro l hl
    match l with
    | [] => rfl
  | succ n ih =>
    intro l hl
    match l with
    | [] => rfl
    | c :: cs =>
      rw [chunksOfAux, List.flatten_cons, ih (List.drop (max t 1) (c :: cs))
        (by
          have h1 : 1 ≤ max t 1 := le_max_right t 1
          have h2 : (c :: cs).length - max t 1 ≤ (c :: cs).length - 1 :=
            Nat.sub_le_sub_left h1 _
          rw [List.length_drop]
          exact le_trans h2 (by simpa using Nat.le_of_succ_le_succ hl))]
      exact List.take_append_drop (max t 1) (c :: cs)

/-- Flattening `chunksOf` yields the list back. -/
theorem chunksOf_flatten (t : Nat) (l : List Nat) : (chunksOf t l).flatten = l :=
  chunksOfAux_flatten t l.length l le_rfl

/-- Every chunk is a sublist of the chunked list. -/
theorem chunksOfAux_sublist (t : Nat) :
    ∀ (fuel : Nat) (l c : List Nat), c ∈ chunksOfAux t fuel l → List.Sublist c l := by
  intro fuel
  induction fuel with
  | zero =>
    intro l c hc
    match l with
    | [] => exact absurd hc (List.not_mem_nil c)
  | succ n ih =>
    intro l c hc
    match l with
    | [] => exact absurd hc (List.not_mem_nil c)
    | x :: xs =>
      rw [chunksOfAux] at hc
      rcases List.mem_cons.mp hc with h | h
      · rw [h]
        exact List.take_sublist (max t 1) (x :: xs)
      · exact (ih _ c h).trans (List.drop_sublist (max t 1) (x :: xs))

/-- Every chunk of `chunksOf` is a sublist of the list. -/
theorem chunksOf_sublist {t : Nat} {l c : List Nat} (hc : c ∈ chunksOf t l) :
    List.Sublist c l :=
  chunksOfAux_sublist t l.length l c hc

/-- A non-empty list has a non-empty chunk list. -/
theorem chunksOf_ne_nil {t : Nat} {l : List Nat} (hl : l ≠ []) : chunksOf t l ≠ [] := by
  match l with
  | [] => exact absurd rfl hl
  | x :: xs =>
    rw [chunksOf, List.length_cons, chunksOfAux]
    exact List.cons_ne_nil _ _

/-- Chunking the empty list gives no chunks, whatever the fuel. -/
theorem chunksOfAux_nil (t fuel : Nat) : chunksOfAux t fuel [] = [] := by
  cases fuel <;> rfl

/-- A short non-empty list is a single chunk. -/
theorem chunksOf_small {t : Nat} {l : List Nat} (hl : l ≠ []) (hlen : l.length ≤ max t 1) :
    chunksOf t l = [l] := by
  match l with
  | x :: xs =>
    rw [chunksOf, List.length_cons, chunksOfAux]
    rw [List.take_of_length_le hlen, List.drop_eq_nil_of_le hlen, chunksOfAux_nil]

/-- Chunking the empty list at any target gives no chunks. -/
theorem chunksOfT_nil (t : TargetCount) : chunksOfT t [] = [] := by
  cases t <;> rfl

/-- Chunking at a numeric target is plain chunking. -/
theorem chunksOfT_num (n : Nat) (l : List Nat) :
    chunksOfT (TargetCount.num n) l = chunksOf n l := by
  cases l <;> rfl

/-- Every chunk at any target is a sublist of the chunked list. -/
theorem chunksOfT_sublist {t : TargetCount} {l c : List Nat} (hc : c ∈ chunksOfT t l) :
    List.Sublist c l := by
  match t, l with
  | _, [] =>
    rw [chunksOfT_nil] at hc
    exact absurd hc (List.not_mem_nil c)
  | TargetCount.nan, x :: xs =>
    have : c = [] := List.mem_singleton.mp hc
    rw [this]
    exact List.nil_sublist _
  | TargetCount.inf, x :: xs =>
    have : c = x :: xs := List.mem_singleton.mp hc
    rw [this]
  | TargetCount.num n, x :: xs =>
    exact chunksOf_sublist hc

/-- A non-empty list has a non-empty chunk list at any target. -/
theorem chunksOfT_ne_nil {t : TargetCount} {l : List Nat} (hl : l ≠ []) :
    chunksOfT t l ≠ [] := by
  match t, l with
  | _, [] => exact absurd rfl hl
  | TargetCount.nan, x :: xs => exact List.cons_ne_nil _ _
  | TargetCount.inf, x :: xs => exact List.cons_ne_nil _ _
  | TargetCount.num n, x :: xs => exact chunksOf_ne_nil hl

/-! Lemmas about `keptIndices`, `buildMeasures`, `jsFindIndex`,
`removeStartIdx` and `measuresOf`. -/

/-- Members of `keptIndicesAux notes i` are at least `i`. -/
theorem keptIndicesAux_ge {notes : List Note} {i j : Nat}
    (hj : j ∈ keptIndicesAux notes i) : i ≤ j := by
  induction notes generalizing i with
  | nil => exact absurd hj (List.not_mem_nil j)
  | cons n rest ih =>
    rw [keptIndicesAux] at hj
    by_cases hb : n.pitch = "|"
    · rw [if_pos hb] at hj
      exact le_trans (Nat.le_succ i) (ih hj)
    · rw [if_neg hb] at hj
      rcases List.mem_cons.mp hj with h | h
      · exact le_of_eq h.symm
      · exact le_trans (Nat.le_succ i) (ih h)

/-- Members of `keptIndicesAux notes i` are below `i + notes.length`. -/
theorem keptIndicesAux_lt {notes : List Note} {i j : Nat}
    (hj : j ∈ keptIndicesAux notes i) : j < i + notes.length := by
  induction notes generalizing i with
  | nil => exact absurd hj (List.not_mem_nil j)
  | cons n rest ih =>
    rw [keptIndicesAux] at hj
    simp only [List.length_cons]
    by_cases hb : n.pitch = "|"
    · rw [if_pos hb] at hj
      have := ih hj
      omega
    · rw [if_neg hb] at hj
      rcases List.mem_cons.mp hj with h | h
      · subst h
        omega
      · have := ih h
        omega

/-- The kept index list has no duplicates. -/
theorem keptIndicesAux_nodup (notes : List Note) (i : Nat) :
    (keptIndicesAux notes i).Nodup := by
  induction notes generalizing i with
  | nil => exact List.nodup_nil
  | cons n rest ih =>
    rw [keptIndicesAux]
    by_cases hb : n.pitch = "|"
    · rw [if_pos hb]
      exact ih (i + 1)
    · rw [if_neg hb]
      refine List.nodup_cons.mpr ⟨fun hmem => ?_, ih (i + 1)⟩
      have := keptIndicesAux_ge hmem
      omega

/-- `keptIndices` has no duplicates. -/
theorem keptIndices_nodup (notes : List Note) : (keptIndices notes).Nodup :=
  keptIndicesAux_nodup notes 0

/-- Members of `keptIndices` are in range. -/
theorem keptIndices_lt {notes : List Note} {j : Nat} (hj : j ∈ keptIndices notes) :
    j < notes.length := by
  have := keptIndicesAux_lt hj
  omega

/-- A non-barline note makes the kept index list non-empty. -/
theorem keptIndicesAux_ne_nil {notes : List Note} (h : ∃ n ∈ notes, n.pitch ≠ "|")
    (i : Nat) : keptIndicesAux notes i ≠ [] := by
  induction notes generalizing i with
  | nil =>
    obtain ⟨n, hn, _⟩ := h
    exact absurd hn (List.not_mem_nil n)
  | cons m rest ih =>
    rw [keptIndicesAux]
    by_cases hb : m.pitch = "|"
    · rw [if_pos hb]
      obtain ⟨n, hn, hnb⟩ := h
      rcases List.mem_cons.mp hn with h1 | h1
      · exact absurd (h1 ▸ hb) hnb
      · exact ih ⟨n, h1, hnb⟩ (i + 1)
    · rw [if_neg hb]
      exact List.cons_ne_nil _ _

/-- Flattening the built measures (from any accumulator) gives the
accumulator followed by the kept indices. -/
theorem buildMeasuresAux_flatten :
    ∀ (notes : List Note) (i : Nat) (cur : List Nat),
      (buildMeasuresAux notes i cur).flatten = cur ++ keptIndicesAux notes i := by
  intro notes
  induction notes with
  | nil =>
    intro i cur
    rw [buildMeasuresAux, keptIndicesAux]
    by_cases h : cur.length ≠ 0
    · simp [h]
    · simp only [ne_eq, not_not] at h
      simp [List.length_eq_zero.mp h]
  | cons n rest ih =>
    intro i cur
    rw [buildMeasuresAux, keptIndicesAux]
    by_cases hb : n.pitch = "|"
    · rw [if_pos hb, if_pos hb, List.flatten_cons, ih (i + 1) []]
      simp
    · rw [if_neg hb, if_neg hb, ih (i + 1) (cur ++ [i])]
      simp

/-- Flattening the built measures gives the kept indices. -/
theorem buildMeasures_flatten (notes : List Note) :
    (buildMeasures notes).flatten = keptIndices notes := by
  rw [buildMeasures, keptIndices, buildMeasuresAux_flatten notes 0 []]
  rfl

/-- A satisfied predicate somewhere in the list makes `findIndex`
non-negative. -/
theorem jsFindIndexAux_nonneg {p : Note → Bool} {notes : List Note}
    (h : ∃ n ∈ notes, p n = true) (i : Nat) : 0 ≤ jsFindIndexAux p notes i := by
  induction notes generalizing i with
  | nil =>
    obtain ⟨n, hn, _⟩ := h
    exact absurd hn (List.not_mem_nil n)
  | cons m rest ih =>
    rw [jsFindIndexAux]
    by_cases hp : p m = true
    · rw [if_pos hp]
      exact Int.ofNat_nonneg i
    · rw [if_neg hp]
      obtain ⟨n, hn, hpn⟩ := h
      rcases List.mem_cons.mp hn with h1 | h1
      · exact absurd (h1 ▸ hpn) hp
      · exact ih ⟨n, h1, hpn⟩ (i + 1)

/-- A non-negative `findIndex` result for a predicate that excludes
barlines lands in the kept index list. -/
theorem jsFindIndexAux_mem_kept {p : Note → Bool}
    (hpb : ∀ n, p n = true → n.pitch ≠ "|") {notes : List Note} (i : Nat)
    (h : 0 ≤ jsFindIndexAux p notes i) :
    (jsFindIndexAux p notes i).toNat ∈ keptIndicesAux notes i := by
  induction notes generalizing i with
  | nil =>
    rw [jsFindIndexAux] at h
    exact absurd h (by norm_num)
  | cons m rest ih =>
    rw [jsFindIndexAux] at h ⊢
    rw [keptIndicesAux]
    by_cases hp : p m = true
    · rw [if_pos hp] at h ⊢
      rw [if_neg (hpb m hp)]
      simp
    · rw [if_neg hp] at h ⊢
      by_cases hb : m.pitch = "|"
      · rw [if_pos hb]
        exact ih (i + 1) h
      · rw [if_neg hb]
        exact List.mem_cons_of_mem i (ih (i + 1) h)

/-- The `isStartPitch` predicate excludes barlines. -/
theorem isStartPitch_ne_bar (n : Note) (h : isStartPitch n = true) : n.pitch ≠ "|" := by
  intro hb
  rw [isStartPitch] at h
  have hs := of_decide_eq_true h
  rw [hb] at hs
  exact absurd hs (by decide)

/-- A non-negative start index is a kept index. -/
theorem startIdxOf_mem_kept {notes : List Note} (h : 0 ≤ startIdxOf notes) :
    (startIdxOf notes).toNat ∈ keptIndices notes :=
  jsFindIndexAux_mem_kept isStartPitch_ne_bar 0 h

/-- `removeStartIdx` preserves the number of measures. -/
theorem removeStartIdx_length (s : Nat) :
    ∀ ms : List (List Nat), (removeStartIdx s ms).length = ms.length := by
  intro ms
  induction ms with
  | nil => rfl
  | cons m rest ih =>
    rw [removeStartIdx]
    by_cases hm : s ∈ m
    · rw [if_pos hm]
      simp
    · rw [if_neg hm]
      simp [ih]

/-- Flattening after the removal step erases one occurrence of the
start index. -/
theorem removeStartIdx_flatten (s : Nat) :
    ∀ ms : List (List Nat), (removeStartIdx s ms).flatten = ms.flatten.erase s := by
  intro ms
  induction ms with
  | nil => rfl
  | cons m rest ih =>
    rw [removeStartIdx]
    by_cases hm : s ∈ m
    · rw [if_pos hm, List.flatten_cons, List.flatten_cons, List.erase_append_left _ hm]
    · rw [if_neg hm, List.flatten_cons, List.flatten_cons, List.erase_append_right _ hm, ih]

/-- After removal from a duplicate-free measure list, no measure
contains the start index any more. -/
theorem removeStartIdx_not_mem {s : Nat} {ms : List (List Nat)}
    (hnd : ms.flatten.Nodup) : ∀ m ∈ removeStartIdx s ms, s ∉ m := by
  induction ms with
  | nil =>
    intro m hm
    exact absurd hm (List.not_mem_nil m)
  | cons m0 rest ih =>
    rw [List.flatten_cons] at hnd
    obtain ⟨hnd0, hndr, hdisj⟩ := List.nodup_append.mp hnd
    intro m hm
    rw [removeStartIdx] at hm
    by_cases hm0 : s ∈ m0
    · rw [if_pos hm0] at hm
      rcases List.mem_cons.mp hm with h1 | h1
      · subst h1
        intro hmem
        exact absurd ((List.Nodup.mem_erase_iff hnd0).mp hmem).1 (by simp)
      · intro hmem
        exact hdisj hm0 (List.mem_flatten.mpr ⟨m, h1, hmem⟩)
    · rw [if_neg hm0] at hm
      rcases List.mem_cons.mp hm with h1 | h1
      · subst h1
        exact hm0
      · exact ih hndr m h1

/-- `isolateStart` gives a non-negative start index. -/
theorem isolateStart_nonneg {notes : List Note} (h : isolateStart notes = true) :
    0 ≤ startIdxOf notes := by
  rw [isolateStart] at h
  exact of_decide_eq_true (Bool.and_eq_true _ _ ▸ h).2

/-- Flattening the processed measures is a permutation of the kept
indices. -/
theorem measuresOf_flatten_perm (notes : List Note) :
    ((measuresOf notes).flatten).Perm (keptIndices notes) := by
  rw [measuresOf]
  by_cases hiso : isolateStart notes = true
  · rw [if_pos hiso, List.flatten_cons, removeStartIdx_flatten, buildMeasures_flatten]
    have hs : (startIdxOf notes).toNat ∈ keptIndices notes :=
      startIdxOf_mem_kept (isolateStart_nonneg hiso)
    have hperm := List.perm_cons_erase hs
    simpa using hperm.symm
  · rw [if_neg hiso, buildMeasures_flatten]

/-- In the processed measure list, the only measure containing the start
index is the dedicated singleton. -/
theorem measuresOf_start_unique {notes : List Note} (hiso : isolateStart notes = true) :
    ∀ m ∈ measuresOf notes, (startIdxOf notes).toNat ∈ m →
      m = [(startIdxOf notes).toNat] := by
  intro m hm hsm
  rw [measuresOf, if_pos hiso] at hm
  rcases List.mem_cons.mp hm with h1 | h1
  · exact h1
  · have hnd : (buildMeasures notes).flatten.Nodup := by
      rw [buildMeasures_flatten]
      exact keptIndices_nodup notes
    exact absurd hsm (removeStartIdx_not_mem hnd m h1)

/-- Under start isolation there are at least two processed measures. -/
theorem measuresOf_two_le {notes : List Note} (hiso : isolateStart notes = true) :
    2 ≤ (measuresOf notes).length := by
  rw [measuresOf, if_pos hiso, List.length_cons, removeStartIdx_length]
  have hs : (startIdxOf notes).toNat ∈ keptIndices notes :=
    startIdxOf_mem_kept (isolateStart_nonneg hiso)
  have hne : (buildMeasures notes).flatten ≠ [] := by
    rw [buildMeasures_flatten]
    exact List.ne_nil_of_mem hs
  have hbne : buildMeasures notes ≠ [] := by
    intro hb
    rw [hb] at hne
    exact hne rfl
  have := List.length_pos.mpr hbne
  omega

/-! Lemmas about the packing loop `packMeasures`. -/

/-- Flattening the packed rows permutes the pending row followed by the
measure contents, provided the only measure containing the start index
(when isolation is on) is the dedicated singleton.  This holds at every
target, including the degenerate `NaN` and `Infinity` ones, since the
oversized branch is only entered at a numeric target. -/
theorem packMeasures_flatten_perm (iso : Bool) (s : Nat) (t : TargetCount) :
    ∀ (ms : List (List Nat)) (row : List Nat),
      (∀ m' ∈ ms, iso = true → s ∈ m' → m' = [s]) →
      ((packMeasures iso s t ms row).flatten).Perm (row ++ ms.flatten) := by
  intro ms
  induction ms with
  | nil =>
    intro row _
    rw [packMeasures, flushFlatten]
    simp
  | cons m rest ih =>
    intro row hH
    have hHr : ∀ m' ∈ rest, iso = true → s ∈ m' → m' = [s] :=
      fun m' hm' => hH m' (List.mem_cons_of_mem m hm')
    rw [packMeasures]
    by_cases h0 : m.length = 0
    · rw [if_pos h0]
      have hm : m = [] := List.length_eq_zero.mp h0
      subst hm
      simpa using ih row hHr
    · rw [if_neg h0]
      by_cases h1 : iso = true ∧ s ∈ m
      · rw [if_pos h1]
        have hm : m = [s] := hH m (List.mem_cons_self m rest) h1.1 h1.2
        subst hm
        have hp : ((packMeasures iso s t rest []).flatten).Perm rest.flatten := by
          simpa using ih [] hHr
        rw [List.flatten_append, flushFlatten, List.flatten_cons, List.flatten_cons]
        exact (hp.append_left [s]).append_left row
      · rw [if_neg h1]
        by_cases h2 : targetLtLen t m.length = true
        · rw [if_pos h2]
          obtain ⟨n, hn⟩ : ∃ n, t = TargetCount.num n := by
            cases t with
            | nan => exact absurd h2 (by simp [targetLtLen])
            | inf => exact absurd h2 (by simp [targetLtLen])
            | num n => exact ⟨n, rfl⟩
          have hp : ((packMeasures iso s t rest []).flatten).Perm rest.flatten := by
            simpa using ih [] hHr
          rw [List.flatten_append, flushFlatten, List.flatten_append,
            show chunksOfT t m = chunksOf n m from by rw [hn, chunksOfT_num],
            chunksOf_flatten, List.flatten_cons]
          exact (hp.append_left m).append_left row
        · rw [if_neg h2]
          by_cases h3 : lenLeTarget (row.length + m.length) t = true ∨ row.length = 0
          · rw [if_pos h3]
            have hp := ih (row ++ m) hHr
            rw [List.append_assoc] at hp
            rw [List.flatten_cons]
            exact hp
          · rw [if_neg h3]
            rw [List.flatten_cons, List.flatten_cons]
            exact (ih m hHr).append_left row

/-- A non-empty pending row ends up as a prefix of some packed row. -/
theorem packMeasures_prefix (iso : Bool) (s : Nat) (t : TargetCount) :
    ∀ (ms : List (List Nat)) (row : List Nat), row ≠ [] →
      ∃ r ∈ packMeasures iso s t ms row, List.IsPrefix row r := by
  intro ms
  induction ms with
  | nil =>
    intro row hrow
    rw [packMeasures]
    have hlen : row.length ≠ 0 := fun h => hrow (List.length_eq_zero.mp h)
    rw [if_pos hlen]
    exact ⟨row, List.mem_singleton_self row, List.prefix_refl row⟩
  | cons m rest ih =>
    intro row hrow
    have hlen : row.length ≠ 0 := fun h => hrow (List.length_eq_zero.mp h)
    rw [packMeasures]
    by_cases h0 : m.length = 0
    · rw [if_pos h0]
      exact ih row hrow
    · rw [if_neg h0]
      by_cases h1 : iso = true ∧ s ∈ m
      · rw [if_pos h1, if_pos hlen]
        exact ⟨row, List.mem_append.mpr (Or.inl (List.mem_singleton_self row)),
          List.prefix_refl row⟩
      · rw [if_neg h1]
        by_cases h2 : targetLtLen t m.length = true
        · rw [if_pos h2, if_pos hlen]
          exact ⟨row, List.mem_append.mpr (Or.inl (List.mem_singleton_self row)),
            List.prefix_refl row⟩
        · rw [if_neg h2]
          by_cases h3 : lenLeTarget (row.length + m.length) t = true ∨ row.length = 0
          · rw [if_pos h3]
            have hne : row ++ m ≠ [] := by
              intro h
              exact hrow (List.append_eq_nil.mp h).1
            obtain ⟨r, hr, hpre⟩ := ih (row ++ m) hne
            exact ⟨r, hr, (List.prefix_append row m).trans hpre⟩
          · rw [if_neg h3]
            exact ⟨row, List.mem_cons_self row _, List.prefix_refl row⟩

/-- A non-empty measure that fits within the target (in the JavaScript
comparison sense, so never at a `NaN` target) ends up inside a single
packed row. -/
theorem packMeasures_keep (iso : Bool) (s : Nat) (t : TargetCount) :
    ∀ (ms : List (List Nat)) (row : List Nat),
      (∀ m' ∈ ms, iso = true → s ∈ m' → m' = [s]) →
      ∀ m ∈ ms, m ≠ [] → lenLeTarget m.length t = true →
        ∃ r ∈ packMeasures iso s t ms row, List.Sublist m r := by
  intro ms
  induction ms with
  | nil =>
    intro row _ m hm
    exact absurd hm (List.not_mem_nil m)
  | cons m0 rest ih =>
    intro row hH m hm hmne hmlen
    have hHr : ∀ m' ∈ rest, iso = true → s ∈ m' → m' = [s] :=
      fun m' hm' => hH m' (List.mem_cons_of_mem m0 hm')
    rw [packMeasures]
    rcases List.mem_cons.mp hm with heq | hmem
    · subst heq
      have h0 : ¬ m.length = 0 := fun h => hmne (List.length_eq_zero.mp h)
      rw [if_neg h0]
      by_cases h1 : iso = true ∧ s ∈ m
      · rw [if_pos h1]
        have hms : m = [s] := hH m (List.mem_cons_self m rest) h1.1 h1.2
        refine ⟨[s], List.mem_append.mpr (Or.inr (List.mem_cons_self [s] _)), ?_⟩
        rw [hms]
      · rw [if_neg h1]
        have h2 : ¬ targetLtLen t m.length = true := by
          cases t with
          | nan => exact absurd hmlen (by simp [lenLeTarget])
          | inf => simp [targetLtLen]
          | num n =>
            have := of_decide_eq_true (by simpa [lenLeTarget] using hmlen)
            simp [targetLtLen]
            omega
        rw [if_neg h2]
        by_cases h3 : lenLeTarget (row.length + m.length) t = true ∨ row.length = 0
        · rw [if_pos h3]
          have hne : row ++ m ≠ [] := by
            intro h
            exact hmne (List.append_eq_nil.mp h).2
          obtain ⟨r, hr, hpre⟩ := packMeasures_prefix iso s t rest (row ++ m) hne
          exact ⟨r, hr, (List.sublist_append_right row m).trans hpre.sublist⟩
        · rw [if_neg h3]
          obtain ⟨r, hr, hpre⟩ := packMeasures_prefix iso s t rest m hmne
          exact ⟨r, List.mem_cons_of_mem _ hr, hpre.sublist⟩
    · by_cases h0 : m0.length = 0
      · rw [if_pos h0]
        exact ih row hHr m hmem hmne hmlen
      · rw [if_neg h0]
        by_cases h1 : iso = true ∧ s ∈ m0
        · rw [if_pos h1]
          obtain ⟨r, hr, hsub⟩ := ih [] hHr m hmem hmne hmlen
          exact ⟨r, List.mem_append.mpr (Or.inr (List.mem_cons_of_mem _ hr)), hsub⟩
        · rw [if_neg h1]
          by_cases h2 : targetLtLen t m0.length = true
          · rw [if_pos h2]
            obtain ⟨r, hr, hsub⟩ := ih [] hHr m hmem hmne hmlen
            exact ⟨r, List.mem_append.mpr (Or.inr (List.mem_append.mpr (Or.inr hr))), hsub⟩
          · rw [if_neg h2]
            by_cases h3 : lenLeTarget (row.length + m0.length) t = true ∨ row.length = 0
            · rw [if_pos h3]
              exact ih (row ++ m0) hHr m hmem hmne hmlen
            · rw [if_neg h3]
              obtain ⟨r, hr, hsub⟩ := ih m0 hHr m hmem hmne hmlen
              exact ⟨r, List.mem_cons_of_mem _ hr, hsub⟩

/-- Every chunk of an oversized measure (in the JavaScript comparison
sense, so only at a numeric target) is itself a packed row. -/
theorem packMeasures_chunks (iso : Bool) (s : Nat) (t : TargetCount)
    (ht : ∀ k, t = TargetCount.num k → 1 ≤ k) :
    ∀ (ms : List (List Nat)) (row : List Nat),
      (∀ m' ∈ ms, iso = true → s ∈ m' → m' = [s]) →
      ∀ m ∈ ms, targetLtLen t m.length = true →
        ∀ c ∈ chunksOfT t m, c ∈ packMeasures iso s t ms row := by
  intro ms
  induction ms with
  | nil =>
    intro row _ m hm
    exact absurd hm (List.not_mem_nil m)
  | cons m0 rest ih =>
    intro row hH m hm hmlen c hc
    have hHr : ∀ m' ∈ rest, iso = true → s ∈ m' → m' = [s] :=
      fun m' hm' => hH m' (List.mem_cons_of_mem m0 hm')
    obtain ⟨k, hk, hkl⟩ : ∃ k, t = TargetCount.num k ∧ k < m.length := by
      cases t with
      | nan => exact absurd hmlen (by simp [targetLtLen])
      | inf => exact absurd hmlen (by simp [targetLtLen])
      | num k => exact ⟨k, rfl, of_decide_eq_true (by simpa [targetLtLen] using hmlen)⟩
    rw [packMeasures]
    rcases List.mem_cons.mp hm with heq | hmem
    · subst heq
      have h0 : ¬ m.length = 0 := by omega
      rw [if_neg h0]
      have h1 : ¬ (iso = true ∧ s ∈ m) := by
        intro h1
        have hms : m = [s] := hH m (List.mem_cons_self m rest) h1.1 h1.2
        rw [hms] at hkl
        simp at hkl
        have := ht k hk
        omega
      rw [if_neg h1, if_pos hmlen]
      exact List.mem_append.mpr (Or.inr (List.mem_append.mpr (Or.inl hc)))
    · by_cases h0 : m0.length = 0
      · rw [if_pos h0]
        exact ih row hHr m hmem hmlen c hc
      · rw [if_neg h0]
        by_cases h1 : iso = true ∧ s ∈ m0
        · rw [if_pos h1]
          exact List.mem_append.mpr (Or.inr (List.mem_cons_of_mem _
            (ih [] hHr m hmem hmlen c hc)))
        · rw [if_neg h1]
          by_cases h2 : targetLtLen t m0.length = true
          · rw [if_pos h2]
            exact List.mem_append.mpr (Or.inr (List.mem_append.mpr (Or.inr
              (ih [] hHr m hmem hmlen c hc))))
          · rw [if_neg h2]
            by_cases h3 : lenLeTarget (row.length + m0.length) t = true ∨ row.length = 0
            · rw [if_pos h3]
              exact ih (row ++ m0) hHr m hmem hmlen c hc
            · rw [if_neg h3]
              exact List.mem_cons_of_mem _ (ih m0 hHr m hmem hmlen c hc)

/-- With start isolation on, the only packed row containing the start
index is the dedicated singleton (provided the pending row avoids it). -/
theorem packMeasures_start_unique (s : Nat) (t : TargetCount) :
    ∀ (ms : List (List Nat)) (row : List Nat), s ∉ row →
      ∀ r ∈ packMeasures true s t ms row, s ∈ r → r = [s] := by
  intro ms
  induction ms with
  | nil =>
    intro row hrow r hr hs
    rw [packMeasures] at hr
    exact absurd (flushMem hr ▸ hs) hrow
  | cons m rest ih =>
    intro row hrow r hr hs
    rw [packMeasures] at hr
    by_cases h0 : m.length = 0
    · rw [if_pos h0] at hr
      exact ih row hrow r hr hs
    · rw [if_neg h0] at hr
      by_cases h1 : (true : Bool) = true ∧ s ∈ m
      · rw [if_pos h1] at hr
        rcases List.mem_append.mp hr with hl | hl
        · exact absurd (flushMem hl ▸ hs) hrow
        · rcases List.mem_cons.mp hl with h2 | h2
          · exact h2
          · exact ih [] (List.not_mem_nil s) r h2 hs
      · have hsm : s ∉ m := fun hsm => h1 ⟨rfl, hsm⟩
        rw [if_neg h1] at hr
        by_cases h2 : targetLtLen t m.length = true
        · rw [if_pos h2] at hr
          rcases List.mem_append.mp hr with hl | hl
          · exact absurd (flushMem hl ▸ hs) hrow
          · rcases List.mem_append.mp hl with hl2 | hl2
            · exact absurd ((chunksOfT_sublist hl2).mem hs) hsm
            · exact ih [] (List.not_mem_nil s) r hl2 hs
        · rw [if_neg h2] at hr
          by_cases h3 : lenLeTarget (row.length + m.length) t = true ∨ row.length = 0
          · rw [if_pos h3] at hr
            have hnm : s ∉ row ++ m := by
              intro hmem
              rcases List.mem_append.mp hmem with h | h
              · exact hrow h
              · exact hsm h
            exact ih (row ++ m) hnm r hr hs
          · rw [if_neg h3] at hr
            rcases List.mem_cons.mp hr with h4 | h4
            · exact absurd (h4 ▸ hs) hrow
            · exact ih m hsm r h4 hs
/-! Lemmas assembling the full `rows` pipeline. -/

/-- The start-singleton property of the processed measures, in the form
needed by the packing lemmas. -/
theorem measuresOf_H (notes : List Note) :
    ∀ m' ∈ measuresOf notes, isolateStart notes = true →
      (startIdxOf notes).toNat ∈ m' → m' = [(startIdxOf notes).toNat] :=
  fun m' hm' hiso hsm => measuresOf_start_unique hiso m' hm' hsm

/-- At most one processed measure forces `isolateStart` off. -/
theorem not_isolateStart_of_le_one {notes : List Note}
    (hlen : (measuresOf notes).length ≤ 1) : isolateStart notes = false := by
  by_cases hiso : isolateStart notes = true
  · have := measuresOf_two_le hiso
    omega
  · exact Bool.not_eq_true _ ▸ hiso

/-- Either the flattened rows permute the kept indices, or the kept
indices are empty and the fallback row of all indices is returned, or
the target degenerated to `NaN` and the fallback chunking produced the
single empty row (dropping every index). -/
theorem rows_flatten_perm_or_range (notes : List Note) (u w : ℚ) :
    ((rows notes u w).flatten).Perm (keptIndices notes) ∨
      (keptIndices notes = [] ∧ rows notes u w = [List.range notes.length]) ∨
      (targetNotesPerRow notes u w = TargetCount.nan ∧ rows notes u w = [[]]) := by
  simp only [rows]
  by_cases hlen : (measuresOf notes).length ≤ 1
  · rw [if_pos hlen]
    have hiso : isolateStart notes = false := not_isolateStart_of_le_one hlen
    have hbm : measuresOf notes = buildMeasures notes := by
      rw [measuresOf, hiso]
      simp
    by_cases h1 : (measuresOf notes).length = 1
    · obtain ⟨m, hm⟩ := List.length_eq_one.mp h1
      have hflat : (if (measuresOf notes).length = 1 then (measuresOf notes).headD []
          else []) = m := by
        rw [if_pos h1, hm]
        rfl
      have hkept : keptIndices notes = m := by
        rw [← buildMeasures_flatten, ← hbm, hm, List.flatten_cons, List.flatten_nil,
          List.append_nil]
      rw [hflat]
      by_cases hmne : m = []
      · subst hmne
        rw [chunksOfT_nil]
        left
        rw [hkept]
        simp
      · obtain ⟨x, xs, hxx⟩ := List.exists_cons_of_ne_nil hmne
        cases htc : targetNotesPerRow notes u w with
        | nan =>
          right
          right
          refine ⟨rfl, ?_⟩
          rw [hxx, show chunksOfT TargetCount.nan (x :: xs) = [[]] from rfl]
          rw [if_pos (by simp)]
        | inf =>
          left
          rw [hxx, show chunksOfT TargetCount.inf (x :: xs) = [x :: xs] from rfl]
          rw [if_pos (by simp)]
          rw [hkept, hxx]
          simp
        | num n =>
          left
          rw [hxx, chunksOfT_num]
          rw [if_pos (by
            intro h
            exact chunksOf_ne_nil (List.cons_ne_nil x xs) (List.length_eq_zero.mp h))]
          rw [chunksOf_flatten, hkept, hxx]
    · have h0 : (measuresOf notes).length = 0 := by omega
      have hms : measuresOf notes = [] := List.length_eq_zero.mp h0
      have hkept : keptIndices notes = [] := by
        rw [← buildMeasures_flatten, ← hbm, hms]
        rfl
      rw [if_neg h1, hkept, chunksOfT_nil]
      left
      simp
  · rw [if_neg hlen]
    have hperm : ((packMeasures (isolateStart notes) (startIdxOf notes).toNat
        (targetNotesPerRow notes u w) (measuresOf notes) []).flatten).Perm
        (keptIndices notes) := by
      have h1 := packMeasures_flatten_perm (isolateStart notes) (startIdxOf notes).toNat
        (targetNotesPerRow notes u w) (measuresOf notes) [] (measuresOf_H notes)
      rw [List.nil_append] at h1
      exact h1.trans (measuresOf_flatten_perm notes)
    by_cases hout : (packMeasures (isolateStart notes) (startIdxOf notes).toNat
        (targetNotesPerRow notes u w) (measuresOf notes) []).length ≠ 0
    · rw [if_pos hout]
      exact Or.inl hperm
    · rw [if_neg hout]
      have hpe : (packMeasures (isolateStart notes) (startIdxOf notes).toNat
          (targetNotesPerRow notes u w) (measuresOf notes) []) = [] :=
        List.length_eq_zero.mp (not_not.mp hout)
      rw [hpe] at hperm
      exact Or.inr (Or.inl ⟨hperm.symm.eq_nil, rfl⟩)

/-! Lemmas about the parser. -/

/-- The `|| 1` fallback keeps a parsed non-zero number. -/
theorem floatOrOne_some {s : String} {x : ℚ} (h : jsParseFloat s = some x) (hx : x ≠ 0) :
    floatOrOne s = x := by
  rw [floatOrOne, h]
  exact if_neg hx

/-- The `|| 1` fallback yields `1` for `NaN` and for `0`. -/
theorem floatOrOne_fallback {s : String}
    (h : jsParseFloat s = none ∨ jsParseFloat s = some 0) : floatOrOne s = 1 := by
  rcases h with h | h <;> rw [floatOrOne, h]
  exact if_pos rfl

/-- The barline token parses to the barline note. -/
theorem parseToken_bar : parseToken "|" = { pitch := "|", duration := 0 } := rfl

/-- Duration of a token containing `/`. -/
theorem parseToken_duration_slash {t : String} (h1 : t ≠ "|")
    (h2 : t.toList.contains '/' = true) :
    (parseToken t).duration =
      1 / floatOrOne (String.mk ((splitOnChar '/' t.toList).getD 1 [])) := by
  rw [parseToken, if_neg h1]
  simp only [h2, if_true]

/-- Duration of a token containing `*` but no `/`. -/
theorem parseToken_duration_star {t : String} (h1 : t ≠ "|")
    (h2 : t.toList.contains '/' = false) (h3 : t.toList.contains '*' = true) :
    (parseToken t).duration =
      floatOrOne (String.mk ((splitOnChar '*' t.toList).getD 1 [])) := by
  rw [parseToken, if_neg h1]
  simp only [h2, h3, if_true, Bool.false_eq_true, if_false]

/-- Duration of a token with neither suffix. -/
theorem parseToken_duration_plain {t : String} (h1 : t ≠ "|")
    (h2 : t.toList.contains '/' = false) (h3 : t.toList.contains '*' = false) :
    (parseToken t).duration = 1 := by
  rw [parseToken, if_neg h1]
  simp only [h2, h3, Bool.false_eq_true, if_false]

/-- The pitch post-processing (pause exemption, octave defaulting) never
produces the bare barline pitch. -/
theorem pitchPost_ne_bar (cs : List Char) :
    (if strToLower (strTrim (String.mk cs)) = "pause" then String.mk cs
     else if endsInDigit (String.mk cs) then String.mk cs
     else String.mk cs ++ "4") ≠ "|" := by
  by_cases hp : strToLower (strTrim (String.mk cs)) = "pause"
  · rw [if_pos hp]
    intro he
    rw [he] at hp
    exact absurd hp (by decide)
  · rw [if_neg hp]
    by_cases hd : endsInDigit (String.mk cs) = true
    · rw [if_pos hd]
      intro he
      rw [he] at hd
      exact absurd hd (by decide)
    · rw [if_neg hd]
      intro he
      have hdata := congrArg String.data he
      rw [String.data_append] at hdata
      have hdata' : cs ++ ['4'] = ['|'] := hdata
      have hlen := congrArg List.length hdata'
      rw [List.length_append] at hlen
      simp only [List.length_cons, List.length_nil] at hlen
      have hcs : cs = [] := List.length_eq_zero.mp (by omega)
      subst hcs
      exact absurd hdata' (by decide)

/-- A non-barline token never parses to the barline pitch. -/
theorem parseToken_pitch_ne_bar {t : String} (h1 : t ≠ "|") :
    (parseToken t).pitch ≠ "|" := by
  rw [parseToken, if_neg h1]
  exact pitchPost_ne_bar _

/-- A parsed note is the synthetic start note or comes from a token. -/
theorem mem_parseSongString {song : String} {n : Note} (hn : n ∈ parseSongString song) :
    n = { pitch := "start", duration := 1 } ∨ ∃ t ∈ tokenize song, n = parseToken t := by
  simp only [parseSongString] at hn
  by_cases hs : song = ""
  · rw [if_pos hs] at hn
    exact absurd hn (List.not_mem_nil n)
  · rw [if_neg hs] at hn
    have hmem : n ∈ (tokenize song).map parseToken →
        ∃ t ∈ tokenize song, n = parseToken t := by
      intro hmem
      obtain ⟨t, ht, hpt⟩ := List.mem_map.mp hmem
      exact ⟨t, ht, hpt.symm⟩
    by_cases h0 : ((tokenize song).map parseToken).length = 0
    · rw [if_pos h0] at hn
      exact Or.inr (hmem hn)
    · rw [if_neg h0] at hn
      by_cases hfirst : strToLower ((((tokenize song).map parseToken).headD
          { pitch := "", duration := 0 }).pitch) ≠ "start"
      · rw [if_pos hfirst] at hn
        rcases List.mem_cons.mp hn with h | h
        · exact Or.inl h
        · exact Or.inr (hmem h)
      · rw [if_neg hfirst] at hn
        exact Or.inr (hmem hn)

/-- A non-empty processed measure that fits the target is contained in a
single returned row. -/
theorem rows_keep {notes : List Note} (u w : ℚ) {m : List Nat}
    (hm : m ∈ measuresOf notes) (hmne : m ≠ [])
    (hmlen : lenLeTarget m.length (targetNotesPerRow notes u w) = true) :
    ∃ r ∈ rows notes u w, List.Sublist m r := by
  simp only [rows]
  by_cases hlen : (measuresOf notes).length ≤ 1
  · rw [if_pos hlen]
    have hone : (measuresOf notes).length = 1 := by
      have := List.length_pos.mpr (List.ne_nil_of_mem hm)
      omega
    obtain ⟨m0, hm0⟩ := List.length_eq_one.mp hone
    have hmm : m = m0 := by
      rw [hm0] at hm
      exact List.mem_singleton.mp hm
    subst hmm
    have hflat : (if (measuresOf notes).length = 1 then (measuresOf notes).headD []
        else []) = m := by
      rw [if_pos hone, hm0]
      rfl
    rw [hflat]
    obtain ⟨x, xs, hxx⟩ := List.exists_cons_of_ne_nil hmne
    cases htc : targetNotesPerRow notes u w with
    | nan =>
      rw [htc] at hmlen
      exact absurd hmlen (by simp [lenLeTarget])
    | inf =>
      rw [hxx, show chunksOfT TargetCount.inf (x :: xs) = [x :: xs] from rfl]
      rw [if_pos (by simp)]
      exact ⟨x :: xs, List.mem_singleton_self _, List.Sublist.refl _⟩
    | num n =>
      rw [htc] at hmlen
      have hle : m.length ≤ n := of_decide_eq_true (by simpa [lenLeTarget] using hmlen)
      have hn1 : 1 ≤ n := targetNotesPerRow_num_one_le htc
      have hsmall : chunksOf n m = [m] := chunksOf_small hmne (by omega)
      rw [chunksOfT_num, hsmall]
      rw [if_pos (by simp)]
      exact ⟨m, List.mem_singleton_self m, List.Sublist.refl m⟩
  · rw [if_neg hlen]
    obtain ⟨r, hr, hsub⟩ := packMeasures_keep (isolateStart notes) (startIdxOf notes).toNat
      (targetNotesPerRow notes u w) (measuresOf notes) [] (measuresOf_H notes) m hm hmne hmlen
    rw [if_pos (by
      intro h
      rw [List.length_eq_zero.mp h] at hr
      exact List.not_mem_nil r hr)]
    exact ⟨r, hr, hsub⟩

/-- Every chunk of an oversized processed measure is a returned row. -/
theorem rows_chunks {notes : List Note} (u w : ℚ) {m : List Nat}
    (hm : m ∈ measuresOf notes)
    (hmlen : targetLtLen (targetNotesPerRow notes u w) m.length = true) :
    ∀ c ∈ chunksOfT (targetNotesPerRow notes u w) m, c ∈ rows notes u w := by
  intro c hc
  have hmne : m ≠ [] := by
    intro h
    rw [h] at hmlen
    cases htc : targetNotesPerRow notes u w <;> rw [htc] at hmlen <;>
      simp [targetLtLen] at hmlen
  simp only [rows]
  by_cases hlen : (measuresOf notes).length ≤ 1
  · rw [if_pos hlen]
    have hone : (measuresOf notes).length = 1 := by
      have := List.length_pos.mpr (List.ne_nil_of_mem hm)
      omega
    obtain ⟨m0, hm0⟩ := List.length_eq_one.mp hone
    have hmm : m = m0 := by
      rw [hm0] at hm
      exact List.mem_singleton.mp hm
    subst hmm
    have hflat : (if (measuresOf notes).length = 1 then (measuresOf notes).headD []
        else []) = m := by
      rw [if_pos hone, hm0]
      rfl
    rw [hflat]
    rw [if_pos (by
      intro h
      exact chunksOfT_ne_nil hmne (List.length_eq_zero.mp h))]
    exact hc
  · rw [if_neg hlen]
    have hmem := packMeasures_chunks (isolateStart notes) (startIdxOf notes).toNat
      (targetNotesPerRow notes u w) (fun k hk => targetNotesPerRow_num_one_le hk)
      (measuresOf notes) [] (measuresOf_H notes) m hm hmlen c hc
    rw [if_pos (by
      intro h
      rw [List.length_eq_zero.mp h] at hmem
      exact List.not_mem_nil c hmem)]
    exact hmem

/-- Under start isolation, the dedicated start singleton is a returned
row, and no other returned row contains the start index. -/
theorem rows_start {notes : List Note} (u w : ℚ) (hiso : isolateStart notes = true) :
    [(startIdxOf notes).toNat] ∈ rows notes u w ∧
      ∀ r ∈ rows notes u w, (startIdxOf notes).toNat ∈ r →
        r = [(startIdxOf notes).toNat] := by
  have h2 := measuresOf_two_le hiso
  have hms : measuresOf notes = [(startIdxOf notes).toNat] ::
      removeStartIdx (startIdxOf notes).toNat (buildMeasures notes) := by
    rw [measuresOf, if_pos hiso]
  have hpack : packMeasures (isolateStart notes) (startIdxOf notes).toNat
      (targetNotesPerRow notes u w) (measuresOf notes) [] =
      [(startIdxOf notes).toNat] :: packMeasures (isolateStart notes)
        (startIdxOf notes).toNat (targetNotesPerRow notes u w)
        (removeStartIdx (startIdxOf notes).toNat (buildMeasures notes)) [] := by
    rw [hms, packMeasures]
    rw [if_neg (by simp)]
    rw [if_pos ⟨hiso, List.mem_singleton_self _⟩]
    simp
  simp only [rows]
  rw [if_neg (by omega)]
  rw [if_pos (by
    rw [hpack]
    simp)]
  constructor
  · rw [hpack]
    exact List.mem_cons_self _ _
  · intro r hr hsr
    have hu := packMeasures_start_unique (startIdxOf notes).toNat
      (targetNotesPerRow notes u w) (measuresOf notes) [] (List.not_mem_nil _) r
    rw [hiso] at hr
    exact hu hr hsr

/-! Concrete evaluation helpers. -/

/-- `jsParseFloat` through a scanned literal. -/
theorem jsParseFloat_eval {s : String} {p : FloatParts}
    (hscan : scanFloat s.toList = some p) :
    jsParseFloat s = some (evalFloatParts p) := by
  rw [jsParseFloat, hscan, Option.map_some']

/-- Value of a plain integer literal (no fraction, no exponent). -/
theorem evalFloatParts_simple (b : Bool) (ds : List Char) :
    evalFloatParts ⟨b, ds, [], false, []⟩ = (if b then (-1 : ℚ) else 1) * (digitsVal ds : ℚ) := by
  simp only [evalFloatParts, show digitsVal [] = 0 from rfl, List.length_nil,
    List.isEmpty_nil, if_true, pow_zero, zpow_zero, Nat.cast_zero]
  norm_num

/-- `parseFloat("0")` is the (falsy) number `0`. -/
theorem jsParseFloat_zero : jsParseFloat "0" = some 0 := by
  rw [jsParseFloat_eval (p := ⟨false, ['0'], [], false, []⟩) (by decide),
    evalFloatParts_simple]
  norm_num [show digitsVal ['0'] = 0 from by decide]

/-- `parseFloat("2") = 2`. -/
theorem jsParseFloat_two : jsParseFloat "2" = some 2 := by
  rw [jsParseFloat_eval (p := ⟨false, ['2'], [], false, []⟩) (by decide),
    evalFloatParts_simple]
  norm_num [show digitsVal ['2'] = 2 from by decide]

/-- `parseFloat("-1") = -1`. -/
theorem jsParseFloat_negOne : jsParseFloat (String.mk ['-', '1']) = some (-1) := by
  rw [jsParseFloat_eval (p := ⟨true, ['1'], [], false, []⟩) (by decide),
    evalFloatParts_simple]
  norm_num [show digitsVal ['1'] = 1 from by decide]

/-- The active border at unit size `10` is the minimum `6`. -/
theorem activeBorder_ten : activeBorderOf 10 = 6 := by
  rw [activeBorderOf, jsRound, show ((10 : ℚ) / 10 + 1 / 2) = 3 / 2 by norm_num,
    show Int.floor ((3 : ℚ) / 2) = 1 from floorEvalQ (by norm_num) (by norm_num)]
  decide

/-- Average footprint at the barline example configuration. -/
theorem avgA_eval : avgWidthOf cNotesA 10 = 78001 / 4000 := by
  rw [avgWidthOf]
  simp only [cNotesA, List.map, noteWidth, clampedDuration, activeBorder_ten,
    List.sum_cons, List.sum_nil, List.length_cons, List.length_nil]
  norm_num

/-- Target at the barline example configuration. -/
theorem targetA_eval : targetNotesPerRow cNotesA 10 59 = TargetCount.num 2 := by
  rw [targetNotesPerRow, avgA_eval, gap]
  rw [if_neg (by norm_num)]
  rw [show ((59 : ℚ) + 15) / ((78001 : ℚ) / 4000 + 15) = 296000 / 138001 by norm_num]
  rw [show Int.floor ((296000 : ℚ) / 138001) = 2 from floorEvalQ (by norm_num) (by norm_num)]
  decide

/-- Rows at the barline example configuration. -/
theorem rowsA_eval : rows cNotesA 10 59 = [[0], [1, 3]] := by
  simp only [rows, targetA_eval]
  decide

/-- Code target at the negative-duration configuration: the clamping to
`0.0001` makes the footprints large, so only one note fits per row. -/
theorem targetB_eval : targetNotesPerRow cNotesB 10 19 = TargetCount.num 1 := by
  have ha : avgWidthOf cNotesB 10 = 12001 / 1000 := by
    rw [avgWidthOf]
    simp only [cNotesB, List.map, noteWidth, clampedDuration, activeBorder_ten,
      List.sum_cons, List.sum_nil, List.length_cons, List.length_nil]
    norm_num
  rw [targetNotesPerRow, ha, gap]
  rw [if_neg (by norm_num)]
  rw [show ((19 : ℚ) + 15) / ((12001 : ℚ) / 1000 + 15) = 34000 / 27001 by norm_num]
  rw [show Int.floor ((34000 : ℚ) / 27001) = 1 from floorEvalQ (by norm_num) (by norm_num)]
  decide

/-- The claimed (unclamped) target at the negative-duration
configuration differs: footprints `2`, so two notes per row. -/
theorem claimTargetB_eval : claimTargetPerRowC6 cNotesB 10 19 = 2 := by
  rw [claimTargetPerRowC6]
  simp only [cNotesB, List.map, claimFootprintC6, activeBorder_ten,
    List.sum_cons, List.sum_nil, List.length_cons, List.length_nil]
  rw [gap]
  rw [show ((19 : ℚ) + 15) / (((-1) * 10 + 2 * ((6 : ℤ) : ℚ) + ((-1) * 10 + 2 * ((6 : ℤ) : ℚ) + 0)) / ((2 : ℕ) : ℚ) + 15) = 2 by norm_num]
  rw [show Int.floor ((2 : ℚ)) = 2 from floorEvalQ (by norm_num) (by norm_num)]
  decide

/-- Rows at the negative-duration configuration. -/
theorem rowsB_eval : rows cNotesB 10 19 = [[0], [1]] := by
  simp only [rows, targetB_eval]
  decide

/-- Target at the barline-free configuration. -/
theorem targetC_eval : targetNotesPerRow cNotesC 10 59 = TargetCount.num 2 := by
  have ha : avgWidthOf cNotesC 10 = 22 := by
    rw [avgWidthOf]
    simp only [cNotesC, List.map, noteWidth, clampedDuration, activeBorder_ten,
      List.sum_cons, List.sum_nil, List.length_cons, List.length_nil]
    norm_num
  rw [targetNotesPerRow, ha, gap]
  rw [if_neg (by norm_num)]
  rw [show ((59 : ℚ) + 15) / ((22 : ℚ) + 15) = 2 by norm_num]
  rw [show Int.floor ((2 : ℚ)) = 2 from floorEvalQ (by norm_num) (by norm_num)]
  decide

/-- The active border at unit size `-27`: the rounded tenth is `-3`, so
the minimum `6` applies. -/
theorem activeBorder_negU : activeBorderOf (-27) = 6 := by
  rw [activeBorderOf, jsRound, show ((-27 : ℚ) / 10 + 1 / 2) = -11 / 5 by norm_num,
    show Int.floor ((-11 : ℚ) / 5) = -3 from floorEvalQ (by norm_num) (by norm_num)]
  decide

/-- At unit size `-27` the single unit-duration note of `cNotesD` has
footprint `1 * (-27) + 2 * 6 = -15`, so the average plus the gap `15`
is zero. -/
theorem avgD_eval : avgWidthOf cNotesD (-27) = -15 := by
  rw [avgWidthOf]
  simp only [cNotesD, List.map, noteWidth, clampedDuration, activeBorder_negU,
    List.sum_cons, List.sum_nil, List.length_cons, List.length_nil]
  norm_num

/-- Degenerate target: at `unitSize = -27`, `containerWidth = -15` both
the numerator and the denominator of the target quotient are zero, so
the JavaScript target is `Math.max(1, NaN) = NaN`. -/
theorem targetD_eval : targetNotesPerRow cNotesD (-27) (-15) = TargetCount.nan := by
  rw [targetNotesPerRow, avgD_eval, gap]
  rw [if_pos (by norm_num), if_pos (by norm_num)]

/-- Rows at the degenerate-target configuration: the fallback chunking
loop produces one empty chunk. -/
theorem rowsD_eval : rows cNotesD (-27) (-15) = [[]] := by
  simp only [rows, targetD_eval]
  decide

/-- The empty note list yields one empty row. -/
theorem rows_nil_eval (u w : ℚ) : rows ([] : List Note) u w = [[]] := by
  simp only [rows, show measuresOf [] = ([] : List (List Nat)) from rfl,
    List.length_nil]
  rw [if_pos (by norm_num)]
  rw [show (if (0 : Nat) = 1 then ([] : List (List Nat)).headD [] else []) = ([] : List Nat)
    from if_neg (by norm_num)]
  rw [chunksOfT_nil]
  simp

/-- Without barlines, the measure builder accumulates every index into
one measure: the accumulator followed by the index range. -/
theorem buildMeasuresAux_nobar :
    ∀ (notes : List Note) (i : Nat) (cur : List Nat), (∀ n ∈ notes, n.pitch ≠ "|") →
      buildMeasuresAux notes i cur =
        if (cur ++ List.range' i notes.length).length ≠ 0 then
          [cur ++ List.range' i notes.length]
        else [] := by
  intro notes
  induction notes with
  | nil =>
    intro i cur _
    rw [buildMeasuresAux]
    simp [List.range']
  | cons n rest ih =>
    intro i cur hbar
    rw [buildMeasuresAux, if_neg (hbar n (List.mem_cons_self n rest))]
    rw [ih (i + 1) (cur ++ [i]) (fun m hm => hbar m (List.mem_cons_of_mem n hm))]
    have hr : List.range' i ((n :: rest).length) = i :: List.range' (i + 1) rest.length := by
      rw [List.length_cons]
      rfl
    rw [hr]
    rw [show (cur ++ [i]) ++ List.range' (i + 1) rest.length =
      cur ++ i :: List.range' (i + 1) rest.length from by simp]

/-! Claim theorems. -/

/-- C1: the claim (and the source's own comment) says `parse("start C")`
does not duplicate the start marker and yields `[{start,1},{C4,1}]`.
The code, however, octave-defaults the token `start` to pitch `start4`
before the check, so the check never fires and a second synthetic start
is prepended: the actual result is `[{start,1},{start4,1},{C4,1}]`. -/
theorem c1_start_token_gets_octave :
    parseSongString "start C" =
      [{ pitch := "start", duration := 1 }, { pitch := "start4", duration := 1 },
       { pitch := "C4", duration := 1 }] := by decide

/-- C2 counterexample: for the barline-containing input `cNotesA`, the
barline's own index `2` is in range but appears in no returned row, so
flattening the rows does not reproduce `[0..n-1]`. -/
theorem c2_counterexample :
    (2 : Nat) ∈ List.range cNotesA.length ∧ (2 : Nat) ∉ (rows cNotesA 10 59).flatten := by
  constructor
  · decide
  · rw [rowsA_eval]
    decide

/-- C2 (amended): for every notes array containing at least one
non-barline element, provided the target is not the degenerate `NaN`
(which arises only when `avgWidth + gap` and `containerWidth + gap` are
both zero), concatenating the returned rows yields exactly the indices
of the non-barline elements, each exactly once (barline indices are
discarded by the measure construction and appear in no row). -/
theorem c2_rows_flatten_perm (notes : List Note) (u w : ℚ)
    (h : ∃ n ∈ notes, n.pitch ≠ "|")
    (ht : targetNotesPerRow notes u w ≠ TargetCount.nan) :
    ((rows notes u w).flatten).Perm (keptIndices notes) := by
  rcases rows_flatten_perm_or_range notes u w with hperm | ⟨hk, _⟩ | ⟨hnan, _⟩
  · exact hperm
  · exact absurd hk (keptIndicesAux_ne_nil h 0)
  · exact absurd hnan ht

/-- C2 witness: the amended statement at the concrete barline input. -/
theorem c2_witness : ((rows cNotesA 10 59).flatten).Perm (keptIndices cNotesA) :=
  c2_rows_flatten_perm cNotesA 10 59 (by decide)
    (by rw [targetA_eval]; exact fun h => TargetCount.noConfusion h)

/-- C3 counterexample: at the concrete barline input, the returned row
`[1, 3]` holds indices of the two distinct measures `[1]` and `[3]`
(both fit the target together), so a row may contain indices of two
different measures. -/
theorem c3_counterexample :
    ∃ r ∈ rows cNotesA 10 59, ∃ a ∈ measuresOf cNotesA, ∃ b ∈ measuresOf cNotesA,
      a ≠ b ∧ (∃ i ∈ a, i ∈ r) ∧ ∃ j ∈ b, j ∈ r := by
  refine ⟨[1, 3], ?_, [1], by decide, [3], by decide, by decide,
    ⟨1, by decide, by decide⟩, ⟨3, by decide, by decide⟩⟩
  rw [rowsA_eval]
  decide

/-- C3 (amended): for every notes array with a barline, a non-empty
processed measure whose length fits the target (the source's JavaScript
comparison `rowCount + measure.length <= target`, false for a `NaN`
target) is never split: all its indices appear inside one returned row;
only an oversized measure (`measure.length > target`, which requires a
numeric target) is split, and then each of its consecutive chunks is a
returned row by itself.  (Small measures may share a row, which is the
part the original claim got wrong.) -/
theorem c3_measures_unsplit (notes : List Note) (u w : ℚ)
    (_hbar : hasBarlines notes = true) (m : List Nat) (hm : m ∈ measuresOf notes) :
    (m ≠ [] → lenLeTarget m.length (targetNotesPerRow notes u w) = true →
      ∃ r ∈ rows notes u w, List.Sublist m r)
    ∧ (targetLtLen (targetNotesPerRow notes u w) m.length = true →
      ∀ c ∈ chunksOfT (targetNotesPerRow notes u w) m, c ∈ rows notes u w) :=
  ⟨fun h1 h2 => rows_keep u w hm h1 h2, fun h1 => rows_chunks u w hm h1⟩

/-- C3 witness: the amended statement at the concrete barline input with
the measure `[1]`. -/
theorem c3_witness :
    (([1] : List Nat) ≠ [] →
      lenLeTarget ([1] : List Nat).length (targetNotesPerRow cNotesA 10 59) = true →
      ∃ r ∈ rows cNotesA 10 59, List.Sublist [1] r)
    ∧ (targetLtLen (targetNotesPerRow cNotesA 10 59) ([1] : List Nat).length = true →
      ∀ c ∈ chunksOfT (targetNotesPerRow cNotesA 10 59) [1], c ∈ rows cNotesA 10 59) :=
  c3_measures_unsplit cNotesA 10 59 (by decide) [1] (by decide)

/-- C4 counterexample: on the empty notes array the code does not return
the empty row list. -/
theorem c4_counterexample : rows ([] : List Note) 80 1200 ≠ [] := by
  rw [rows_nil_eval]
  decide

/-- C4 (amended): for every unit size and container width, the layout of
the empty notes array is a list containing exactly one empty row (the
`[flat]` fallback with `flat = []`), not the empty list of rows. -/
theorem c4_empty_rows (u w : ℚ) : rows ([] : List Note) u w = [[]] :=
  rows_nil_eval u w

/-- C5 counterexample: for the token `C*0` the multiplier `0` parses as
a valid number, yet the duration is the fallback `1`, not
`parseFloat("0") = 0`: the JavaScript `|| 1` also treats the falsy `0`
as missing. -/
theorem c5_counterexample :
    jsParseFloat "0" = some 0 ∧ (parseToken "C*0").duration = 1 ∧
      (parseToken "C*0").duration ≠ 0 := by
  have hd : (parseToken "C*0").duration = 1 := by
    rw [parseToken_duration_star (by decide) (by decide) (by decide),
      show (splitOnChar '*' "C*0".toList).getD 1 [] = ['0'] from by decide]
    exact floatOrOne_fallback (Or.inr jsParseFloat_zero)
  refine ⟨jsParseFloat_zero, hd, ?_⟩
  rw [hd]
  norm_num

/-- C5 (amended): for a token `name/denom`, the duration is
`1 / parseFloat(denom)` exactly when `denom` parses as a valid non-zero
number, and for `name*mult` the duration is `parseFloat(mult)` exactly
when `mult` parses as a valid non-zero number; the fallback duration
multiplier `1` is taken when the numeric suffix is not a valid number or
parses to the falsy `0`. -/
theorem c5_duration_suffix (t : String) (x : ℚ) :
    (t ≠ "|" → t.toList.contains '/' = true →
      jsParseFloat (String.mk ((splitOnChar '/' t.toList).getD 1 [])) = some x → x ≠ 0 →
      (parseToken t).duration = 1 / x)
    ∧ (t ≠ "|" → t.toList.contains '/' = false → t.toList.contains '*' = true →
      jsParseFloat (String.mk ((splitOnChar '*' t.toList).getD 1 [])) = some x → x ≠ 0 →
      (parseToken t).duration = x)
    ∧ (t ≠ "|" → t.toList.contains '/' = true →
      (jsParseFloat (String.mk ((splitOnChar '/' t.toList).getD 1 [])) = none ∨
        jsParseFloat (String.mk ((splitOnChar '/' t.toList).getD 1 [])) = some 0) →
      (parseToken t).duration = 1)
    ∧ (t ≠ "|" → t.toList.contains '/' = false → t.toList.contains '*' = true →
      (jsParseFloat (String.mk ((splitOnChar '*' t.toList).getD 1 [])) = none ∨
        jsParseFloat (String.mk ((splitOnChar '*' t.toList).getD 1 [])) = some 0) →
      (parseToken t).duration = 1) := by
  refine ⟨fun h1 h2 h3 h4 => ?_, fun h1 h2 h3 h4 h5 => ?_,
    fun h1 h2 h3 => ?_, fun h1 h2 h3 h4 => ?_⟩
  · rw [parseToken_duration_slash h1 h2, floatOrOne_some h3 h4]
  · rw [parseToken_duration_star h1 h2 h3, floatOrOne_some h4 h5]
  · rw [parseToken_duration_slash h1 h2, floatOrOne_fallback h3]
    norm_num
  · rw [parseToken_duration_star h1 h2 h3, floatOrOne_fallback h4]

/-- C5 witness: the slash case at the concrete token `C/2`. -/
theorem c5_witness : (parseToken "C/2").duration = 1 / 2 := by
  have jh : jsParseFloat (String.mk ((splitOnChar '/' "C/2".toList).getD 1 [])) = some 2 := by
    rw [show (splitOnChar '/' "C/2".toList).getD 1 [] = ['2'] from by decide]
    exact jsParseFloat_two
  exact (c5_duration_suffix "C/2" 2).1 (by decide) (by decide) jh (by norm_num)

/-- C6 counterexample: at the negative-duration configuration the code
clamps non-positive durations to `0.0001` before averaging, so its
target (`1`) differs from the claim's unclamped formula (target `2`),
and the returned rows are not the chunks the claim's formula predicts. -/
theorem c6_counterexample :
    rows cNotesB 10 19 ≠
      chunksOf (claimTargetPerRowC6 cNotesB 10 19) (List.range cNotesB.length) := by
  rw [rowsB_eval, claimTargetB_eval]
  decide

/-- C6 (amended): for every non-empty notes array without barlines and
positive unit size, the target is a genuine number `targetPerRow ≥ 1`
and the layout is the partition of `[0..n-1]` into consecutive chunks
of `targetPerRow` indices (last chunk possibly smaller), where
`targetPerRow` uses the arithmetic mean of the clamped footprints
`(duration > 0 ? duration : 0.0001) * unitSize +
2 * max(round(unitSize/10), 6)` (the claim's formula omitted the
clamping of non-positive durations). -/
theorem c6_no_barline_chunks (notes : List Note) (u w : ℚ) (hne : notes ≠ [])
    (hbar : ∀ n ∈ notes, n.pitch ≠ "|") (hu : 0 < u) :
    ∃ n : Nat, targetNotesPerRow notes u w = TargetCount.num n ∧ 1 ≤ n ∧
      rows notes u w = chunksOf n (List.range notes.length) := by
  have havg : avgWidthOf notes u + gap ≠ 0 := by
    have hpos : 0 < avgWidthOf notes u + gap := by
      have := avgWidthOf_pos hne hu
      rw [gap]
      linarith
    exact hpos.ne'
  obtain ⟨n, hn, hn1⟩ := targetNotesPerRow_num_of_ne havg
  refine ⟨n, hn, hn1, ?_⟩
  have hnb : hasBarlines notes = false := by
    rw [hasBarlines]
    rw [Bool.eq_false_iff]
    intro hany
    obtain ⟨n, hn, hd⟩ := List.any_eq_true.mp hany
    exact hbar n hn (of_decide_eq_true hd)
  have hiso : isolateStart notes = false := by
    rw [isolateStart, hnb, Bool.false_and]
  have hbuild : buildMeasures notes = [List.range notes.length] := by
    rw [buildMeasures, buildMeasuresAux_nobar notes 0 [] hbar]
    rw [List.nil_append, ← List.range_eq_range']
    rw [if_pos (by
      intro h
      rw [List.length_range] at h
      exact hne (List.length_eq_zero.mp h))]
  have hms : measuresOf notes = [List.range notes.length] := by
    rw [measuresOf, hiso]
    simp [hbuild]
  simp only [rows, hms]
  rw [if_pos (by simp)]
  have hflat : (if ([List.range notes.length] : List (List Nat)).length = 1 then
      ([List.range notes.length] : List (List Nat)).headD [] else []) =
      List.range notes.length := by
    rw [if_pos (by simp)]
    rfl
  rw [hflat, hn, chunksOfT_num]
  rw [if_pos (by
    intro h
    have hrne : List.range notes.length ≠ [] := by
      intro hr
      have := congrArg List.length hr
      rw [List.length_range] at this
      exact hne (List.length_eq_zero.mp this)
    exact chunksOf_ne_nil hrne (List.length_eq_zero.mp h))]

/-- C6 witness: the amended statement at the concrete barline-free
configuration. -/
theorem c6_witness :
    ∃ n : Nat, targetNotesPerRow cNotesC 10 59 = TargetCount.num n ∧ 1 ≤ n ∧
      rows cNotesC 10 59 = chunksOf n (List.range cNotesC.length) :=
  c6_no_barline_chunks cNotesC 10 59 (by decide) (by decide) (by norm_num)

/-- C7: when the notes contain a barline and a (case-insensitive)
`start` element, the index of the first start element occupies a
returned row by itself, and appears in no other row. -/
theorem c7_start_own_row (notes : List Note) (u w : ℚ)
    (hbar : hasBarlines notes = true)
    (hstart : ∃ n ∈ notes, strToLower n.pitch = "start") :
    [(startIdxOf notes).toNat] ∈ rows notes u w ∧
      ∀ r ∈ rows notes u w, (startIdxOf notes).toNat ∈ r →
        r = [(startIdxOf notes).toNat] := by
  have hp : ∃ n ∈ notes, isStartPitch n = true := by
    obtain ⟨n, hn, hs⟩ := hstart
    exact ⟨n, hn, decide_eq_true hs⟩
  have hnn : 0 ≤ startIdxOf notes := jsFindIndexAux_nonneg hp 0
  have hiso : isolateStart notes = true := by
    rw [isolateStart, Bool.and_eq_true]
    exact ⟨hbar, decide_eq_true hnn⟩
  exact rows_start u w hiso

/-- C7 witness: the statement at the concrete barline input. -/
theorem c7_witness :
    [(startIdxOf cNotesA).toNat] ∈ rows cNotesA 10 59 ∧
      ∀ r ∈ rows cNotesA 10 59, (startIdxOf cNotesA).toNat ∈ r →
        r = [(startIdxOf cNotesA).toNat] :=
  c7_start_own_row cNotesA 10 59 (by decide) (by decide)

/-- C8 counterexample: the claimed fallback `targetPerRow at least 1`
fails for degenerate widths.  At the single unit-duration note with
`unitSize = -27`, `containerWidth = -15` the average footprint plus the
gap and the container width plus the gap are both zero, so the source's
target is `Math.max(1, 0/0) = Math.max(1, NaN) = NaN`, and the layout
returns `[[]]`, dropping the in-range index `0`. -/
theorem c8_counterexample :
    targetNotesPerRow cNotesD (-27) (-15) = TargetCount.nan ∧
      rows cNotesD (-27) (-15) = [[]] ∧
      (0 : Nat) ∈ keptIndices cNotesD ∧
      (0 : Nat) ∉ (rows cNotesD (-27) (-15)).flatten := by
  refine ⟨targetD_eval, rowsD_eval, by decide, ?_⟩
  rw [rowsD_eval]
  decide

/-- C8 (amended): the embedded core is total by construction, and the
duration factor entering every footprint is the clamped, strictly
positive `duration > 0 ? duration : 0.0001`; the computed target is a
number at least `1` whenever the denominator `avgWidth + gap` is not
zero, while a zero denominator (reachable only for negative unit sizes)
yields `NaN`, `Infinity` or `1` instead of the documented minimum. -/
theorem c8_total_defaults (notes : List Note) (u w : ℚ) :
    (avgWidthOf notes u + gap ≠ 0 →
      ∃ n : Nat, targetNotesPerRow notes u w = TargetCount.num n ∧ 1 ≤ n) ∧
    (avgWidthOf notes u + gap = 0 →
      targetNotesPerRow notes u w = TargetCount.nan ∨
      targetNotesPerRow notes u w = TargetCount.inf ∨
      targetNotesPerRow notes u w = TargetCount.num 1) ∧
    ∀ n : Note, 0 < clampedDuration n := by
  refine ⟨fun h => targetNotesPerRow_num_of_ne h,
    fun h => targetNotesPerRow_degenerate h, fun n => ?_⟩
  rw [clampedDuration]
  by_cases h : 0 < n.duration
  · rw [if_pos h]
    exact h
  · rw [if_neg h]
    norm_num

/-- C8 witness: at the barline example configuration the denominator is
non-zero, so the target is a genuine number at least `1`. -/
theorem c8_witness :
    ∃ n : Nat, targetNotesPerRow cNotesA 10 59 = TargetCount.num n ∧ 1 ≤ n :=
  (c8_total_defaults cNotesA 10 59).1 (by rw [avgA_eval, gap]; norm_num)

/-- C9 counterexample: the input `C*-1` parses to a note with the
negative duration `-1`, so durations are not always nonnegative. -/
theorem c9_counterexample : ¬ ∀ n ∈ parseSongString "C*-1", 0 ≤ n.duration := by
  intro h
  have hd : (parseToken "C*-1").duration = -1 := by
    rw [parseToken_duration_star (by decide) (by decide) (by decide),
      show (splitOnChar '*' "C*-1".toList).getD 1 [] = ['-', '1'] from by decide]
    exact floatOrOne_some jsParseFloat_negOne (by norm_num)
  have hm : parseToken "C*-1" ∈ parseSongString "C*-1" := by
    simp only [parseSongString]
    rw [if_neg (by decide), show tokenize "C*-1" = ["C*-1"] from by decide]
    simp only [List.map_cons, List.map_nil]
    rw [if_neg (by decide)]
    rw [if_pos (by decide)]
    exact List.mem_cons_of_mem _ (List.mem_singleton_self _)
  have := h _ hm
  rw [hd] at this
  norm_num at this

/-- C9 (amended): in every parsed sequence the barline sentinel `|` has
duration `0`, and a token with neither `/` nor `*` suffix (other than
the barline itself) has duration exactly `1`; durations can however be
negative when a numeric suffix is negative (e.g. `C*-1`), and a
non-barline note can have duration `0` too (JavaScript parses the
suffix of `C/Infinity` to `Infinity`, giving `1 / Infinity = 0`), so
neither nonnegativity nor the converse `0`-only-for-barlines holds. -/
theorem c9_duration_invariants :
    (∀ song : String, ∀ n ∈ parseSongString song, n.pitch = "|" → n.duration = 0)
    ∧ ∀ t : String, t ≠ "|" → t.toList.contains '/' = false →
        t.toList.contains '*' = false → (parseToken t).duration = 1 := by
  constructor
  · intro song n hn hp
    rcases mem_parseSongString hn with h | ⟨t, _, h⟩
    · subst h
      exact absurd hp (by decide)
    · subst h
      by_cases hbar : t = "|"
      · subst hbar
        rw [parseToken_bar]
      · exact absurd hp (parseToken_pitch_ne_bar hbar)
  · intro t h1 h2 h3
    exact parseToken_duration_plain h1 h2 h3

/-- C9 witness: the invariants at the parsed barline of the concrete
song `C |` and at the suffix-free token `C`. -/
theorem c9_witness :
    ({ pitch := "|", duration := 0 } : Note).duration = 0 ∧
      (parseToken "C").duration = 1 :=
  ⟨c9_duration_invariants.1 "C |" { pitch := "|", duration := 0 } (by decide) rfl,
   c9_duration_invariants.2 "C" (by decide) (by decide) (by decide)⟩

/-- C10: for every notes array, unit size and container width, the
returned row indices are pairwise distinct across all rows and lie in
`[0, notes.length)`, so indexing the notes array with any returned index
is in bounds. -/
theorem c10_indices_in_range_nodup (notes : List Note) (u w : ℚ) :
    ((rows notes u w).flatten).Nodup ∧
      ∀ i ∈ (rows notes u w).flatten, i < notes.length := by
  rcases rows_flatten_perm_or_range notes u w with hperm | ⟨_, hr⟩ | ⟨_, hr⟩
  · refine ⟨hperm.nodup_iff.mpr (keptIndices_nodup notes), fun i hi => ?_⟩
    exact keptIndices_lt (hperm.mem_iff.mp hi)
  · rw [hr]
    constructor
    · simp [List.nodup_range]
    · intro i hi
      simp only [List.flatten_cons, List.flatten_nil, List.append_nil] at hi
      exact List.mem_range.mp hi
  · rw [hr]
    refine ⟨by simp, fun i hi => ?_⟩
    simp at hi
